import Mathlib

/-!
Verification of the trprvr subtitle-language-ratio tool (src/main.rs) against
its natural-language specification.

The source program walks a directory, extracts text cues from subtitle/lyric
files, strips inline markup with two regexes, classifies each cleaned cue with
an external language detector, counts Chinese- and Japanese-classified cues,
and prints chinese_count / (japanese_count + chinese_count) as an f32.

Shallow embedding choices:
- Rust strings are embedded as List Char.
- The external detector (whichlang) is a parameter of the pipeline functions;
  its output enum is embedded as the Lang inductive below.
- The f32 ratio is embedded exactly: IEEE division of the two nonnegative
  integer counts is NaN exactly when both counts are zero, and otherwise a
  finite value which we represent by the exact rational (f32 rounding is
  abstracted away; only the NaN/finite distinction and exact-arithmetic order
  facts are used in the theorems below).
-/

namespace Trprvr

open List (Sublist)

/-- Convenient spelling of core's List.Sublist for this development. -/
abbrev Sub (l1 l2 : List Char) : Prop := List.Sublist l1 l2

/-- The opening-brace character, written via its code point 123. -/
def lbrace : Char := Char.ofNat 123

/-- The closing-brace character, written via its code point 125. -/
def rbrace : Char := Char.ofNat 125

/-- The language enumeration returned by the external detector
(whichlang's Lang). The source only distinguishes Cmn, Jpn and a wildcard. -/
inductive Lang
  | Ara | Cmn | Deu | Eng | Fra | Hin | Ita | Jpn | Kor | Nld | Por | Rus | Spa | Swe | Tur | Vie
  deriving DecidableEq, Repr

/-- Rust's char::is_whitespace: the Unicode White_Space property, used by
str::trim in clean_text. -/
def isRustWhitespace (c : Char) : Bool :=
  let n := c.toNat
  (decide (9 ≤ n) && decide (n ≤ 13)) || n == 32 || n == 133 || n == 160 ||
    n == 5760 || (decide (8192 ≤ n) && decide (n ≤ 8202)) || n == 8232 ||
    n == 8233 || n == 8239 || n == 8287 || n == 12288

/-- Rust's str::trim: drop Unicode whitespace from both ends. -/
def trimChars (l : List Char) : List Char :=
  ((l.dropWhile isRustWhitespace).reverse.dropWhile isRustWhitespace).reverse

/-- Scanner for ASS_TAGS.replace_all(text, ""), where ASS_TAGS is the regex
"an opening brace, any run (possibly empty) of non-closing-brace characters,
a closing brace".  A match starts exactly at an opening brace that is followed
(at any distance) by a closing brace, and extends to the first such closing
brace; replace_all removes successive leftmost matches.  The Bool flag is true
while inside a match being dropped. -/
def assStrip : Bool → List Char → List Char
  | _, [] => []
  | true, c :: rest => if c == rbrace then assStrip false rest else assStrip true rest
  | false, c :: rest =>
    if c == lbrace && rest.any (· == rbrace) then assStrip true rest
    else c :: assStrip false rest

/-- ASS_TAGS.replace_all(text, "") from clean_text. -/
def stripAssTags (text : List Char) : List Char := assStrip false text

/-- Whether a match of the HTML_TAGS regex "an opening angle bracket, a
nonempty run of non-closing-angle-bracket characters, a closing angle bracket"
begins at an opening angle bracket whose following characters are rest: the
next character must not itself be the closing bracket (the run is nonempty),
and a closing bracket must occur later. -/
def htmlOpen : List Char → Bool
  | [] => false
  | d :: rest2 => d != '>' && rest2.any (· == '>')

/-- Scanner for HTML_TAGS.replace_all(text, ""); same leftmost-match scheme as
assStrip, but a match needs at least one character between the brackets. -/
def htmlStrip : Bool → List Char → List Char
  | _, [] => []
  | true, c :: rest => if c == '>' then htmlStrip false rest else htmlStrip true rest
  | false, c :: rest =>
    if c == '<' && htmlOpen rest then htmlStrip true rest
    else c :: htmlStrip false rest

/-- HTML_TAGS.replace_all(text, "") from clean_text. -/
def stripHtmlTags (text : List Char) : List Char := htmlStrip false text

/-- fn clean_text: strip ASS tags, then HTML tags, then trim whitespace. -/
def clean_text (text : List Char) : List Char :=
  trimChars (stripHtmlTags (stripAssTags text))

/-- Whether the text contains a match of the ASS_TAGS regex: an opening brace
followed, at any distance, by a closing brace. -/
def hasAssMatch : List Char → Bool
  | [] => false
  | c :: rest => (c == lbrace && rest.any (· == rbrace)) || hasAssMatch rest

/-- Whether the text contains a match of the HTML_TAGS regex: an opening angle
bracket followed by at least one non-closing character and then a closing
angle bracket with no closing bracket in between. -/
def hasHtmlMatch : List Char → Bool
  | [] => false
  | c :: rest => (c == '<' && htmlOpen rest) || hasHtmlMatch rest

/-- A character that belongs to neither markup alphabet. -/
def markupFree (c : Char) : Bool :=
  c != lbrace && c != rbrace && c != '<' && c != '>'

/-- The two run-scoped counters of fn main. -/
structure Counters where
  chinese_count : Nat
  japanese_count : Nat
  deriving DecidableEq, Repr

/-- The body of the per-cue loop in fn main: clean the text, detect its
language, and bump the matching counter (wildcard arm: no change). -/
def record (detect : List Char → Lang) (st : Counters) (text : List Char) : Counters :=
  match detect (clean_text text) with
  | Lang.Cmn => { st with chinese_count := st.chinese_count + 1 }
  | Lang.Jpn => { st with japanese_count := st.japanese_count + 1 }
  | _ => st

/-- The per-file cue loop of fn main over a list of extracted cue texts. -/
def processTexts (detect : List Char → Lang) (st : Counters) (texts : List (List Char)) : Counters :=
  texts.foldl (record detect) st

/-- The mathematical progress ratio chineseCount / (chineseCount + japaneseCount)
as an exact rational. -/
def ratioQ (st : Counters) : ℚ :=
  (st.chinese_count : ℚ) / ((st.chinese_count : ℚ) + (st.japanese_count : ℚ))

/-- The value printed by fn main: an f32, which for these operands is NaN
exactly when both counts are zero and finite otherwise. -/
inductive ProgressValue
  | nan
  | val (q : ℚ)
  deriving DecidableEq, Repr

/-- chinese_count as f32 / (japanese_count + chinese_count) as f32, embedded
exactly: 0.0/0.0 is NaN; otherwise the (exact) finite quotient. -/
def progressOutput (st : Counters) : ProgressValue :=
  if st.japanese_count + st.chinese_count = 0 then ProgressValue.nan
  else ProgressValue.val
    ((st.chinese_count : ℚ) / ((st.japanese_count : ℚ) + (st.chinese_count : ℚ)))

/-- Outcome of one of the external format parsers on a file's decoded text:
either the list of cue texts mapped out of the parsed events, or a parse
failure. -/
inductive ParseResult
  | ok (cues : List (List Char))
  | err
  deriving DecidableEq, Repr

/-- The shared shape of parse_ass / parse_srt / parse_vtt / parse_lrc after
the external parse: on success the mapped cue texts, on failure an empty
vector (the eprintln report is I/O and outside the value model). -/
def extractCues : ParseResult → List (List Char)
  | ParseResult.ok cues => cues
  | ParseResult.err => []

/-- One item yielded by the WalkDir traversal in fn main, at the granularity
of the loop's early-continue branches: a traversal error (including the error
entry produced when the root path does not exist), a non-file entry, a file
with an unsupported extension, an open/read failure, or a supported subtitle
file summarized by its parse outcome. -/
inductive Entry
  | walkErr
  | notFile
  | unsupported
  | openErr
  | readErr
  | subtitleFile (r : ParseResult)
  deriving DecidableEq, Repr

/-- Whether the entry reaches the parse-and-classify stage of the loop. -/
def isSubtitleEntry : Entry → Bool
  | Entry.subtitleFile _ => true
  | _ => false

/-- One iteration of the WalkDir loop in fn main: every non-subtitle branch
ends in continue and leaves the counters unchanged. -/
def processEntry (detect : List Char → Lang) (st : Counters) : Entry → Counters
  | Entry.subtitleFile r => processTexts detect st (extractCues r)
  | _ => st

/-- fn main: fold the loop over all traversal entries starting from zeroed
counters, then print the progress value.  There is no early fatal exit in the
loop; every branch continues and the println at the end always runs. -/
def runMain (detect : List Char → Lang) (entries : List Entry) : ProgressValue :=
  progressOutput (entries.foldl (processEntry detect) { chinese_count := 0, japanese_count := 0 })

/-- fn parse_lrc after the external Lyrics parse: the timed lines (timestamp
paired with text), mapped to their text portion, keeping only lines whose
trimmed text is nonempty. -/
def parse_lrc_cues (lines : List (Nat × List Char)) : List (List Char) :=
  (lines.map Prod.snd).filter (fun text => !(trimChars text).isEmpty)

/-- Modelled from the spec: the external language-identification collaborator
(whichlang's detect_language) is not part of src/; the spec's classifier
contract states that classifying the empty string must yield Other, never
Chinese or Japanese. -/
def SpecDetector (detect : List Char → Lang) : Prop :=
  detect [] ≠ Lang.Cmn ∧ detect [] ≠ Lang.Jpn

/-- Contribution of one cue to chinese_count. -/
def cDelta (detect : List Char → Lang) (t : List Char) : Nat :=
  if detect (clean_text t) = Lang.Cmn then 1 else 0

/-- Contribution of one cue to japanese_count. -/
def jDelta (detect : List Char → Lang) (t : List Char) : Nat :=
  if detect (clean_text t) = Lang.Jpn then 1 else 0

theorem assStrip_sublist (l : List Char) : ∀ b, Sub (assStrip b l) l := by
  induction l with
  | nil => intro b; cases b <;> simp [assStrip]
  | cons c rest ih =>
    intro b
    cases b with
    | true =>
      simp only [assStrip]
      split
      · exact (ih false).cons c
      · exact (ih true).cons c
    | false =>
      simp only [assStrip]
      split
      · exact (ih true).cons c
      · exact (ih false).cons₂ c

theorem htmlStrip_sublist (l : List Char) : ∀ b, Sub (htmlStrip b l) l := by
  induction l with
  | nil => intro b; cases b <;> simp [htmlStrip]
  | cons c rest ih =>
    intro b
    cases b with
    | true =>
      simp only [htmlStrip]
      split
      · exact (ih false).cons c
      · exact (ih true).cons c
    | false =>
      simp only [htmlStrip]
      split
      · exact (ih true).cons c
      · exact (ih false).cons₂ c

theorem assStrip_id_of_no_lbrace (l : List Char) (h : ∀ c ∈ l, c ≠ lbrace) :
    assStrip false l = l := by
  induction l with
  | nil => rfl
  | cons c rest ih =>
    have hc : (c == lbrace) = false := by
      simpa using h c (List.mem_cons_self c rest)
    have ih' := ih (fun x hx => h x (List.mem_cons_of_mem c hx))
    simp [assStrip, hc, ih']

theorem htmlStrip_id_of_no_langle (l : List Char) (h : ∀ c ∈ l, c ≠ '<') :
    htmlStrip false l = l := by
  induction l with
  | nil => rfl
  | cons c rest ih =>
    have hc : (c == '<') = false := by
      simpa using h c (List.mem_cons_self c rest)
    have ih' := ih (fun x hx => h x (List.mem_cons_of_mem c hx))
    simp [htmlStrip, hc, ih']

theorem assStrip_id_of_no_match (l : List Char) (h : hasAssMatch l = false) :
    assStrip false l = l := by
  induction l with
  | nil => rfl
  | cons c rest ih =>
    rw [hasAssMatch] at h
    rw [Bool.or_eq_false_iff] at h
    simp [assStrip, h.1, ih h.2]

theorem htmlStrip_id_of_no_match (l : List Char) (h : hasHtmlMatch l = false) :
    htmlStrip false l = l := by
  induction l with
  | nil => rfl
  | cons c rest ih =>
    rw [hasHtmlMatch] at h
    rw [Bool.or_eq_false_iff] at h
    simp [htmlStrip, h.1, ih h.2]

theorem hasAssMatch_assStrip (l : List Char) : ∀ b, hasAssMatch (assStrip b l) = false := by
  induction l with
  | nil => intro b; cases b <;> rfl
  | cons c rest ih =>
    intro b
    cases b with
    | true =>
      simp only [assStrip]
      split
      · exact ih false
      · exact ih true
    | false =>
      simp only [assStrip]
      split
      · exact ih true
      · rename_i hcond
        rw [hasAssMatch, Bool.or_eq_false_iff]
        refine ⟨?_, ih false⟩
        by_cases hc : (c == lbrace) = true
        · have hany : rest.any (· == rbrace) = false := by
            by_contra hh
            rw [Bool.not_eq_false] at hh
            exact hcond (by rw [hc, hh]; rfl)
          have hsub : (assStrip false rest).any (· == rbrace) = false := by
            rw [List.any_eq_false] at hany ⊢
            intro x hx
            exact hany x ((assStrip_sublist rest false).subset hx)
          rw [hsub]
          simp
        · rw [Bool.not_eq_true] at hc
          rw [hc]
          simp

theorem htmlOpen_htmlStrip_false (rest : List Char) (h : htmlOpen rest = false) :
    htmlOpen (htmlStrip false rest) = false := by
  cases rest with
  | nil => rfl
  | cons d rest2 =>
    rw [htmlOpen, Bool.and_eq_false_iff] at h
    rcases h with h | h
    · rw [bne_eq_false_iff_eq] at h
      subst h
      have hne : (('>' : Char) == '<') = false := by decide
      simp only [htmlStrip, hne, Bool.false_and, if_neg Bool.false_ne_true]
      rw [htmlOpen]
      simp
    · have hcond : (d == '<' && htmlOpen rest2) = false := by
        by_cases hd : (d == '<') = true
        · cases hopen : htmlOpen rest2 with
          | false => simp
          | true =>
            exfalso
            cases rest2 with
            | nil => exact absurd hopen (by decide)
            | cons e r3 =>
              rw [htmlOpen, Bool.and_eq_true] at hopen
              rw [List.any_eq_false] at h
              obtain ⟨x, hx, hpx⟩ := List.any_eq_true.mp hopen.2
              exact h x (List.mem_cons_of_mem e hx) hpx
        · rw [Bool.not_eq_true] at hd
          rw [hd]
          rfl
      simp only [htmlStrip, hcond, if_neg Bool.false_ne_true]
      rw [htmlOpen]
      rw [Bool.and_eq_false_iff]
      right
      rw [List.any_eq_false] at h ⊢
      intro x hx
      exact h x ((htmlStrip_sublist rest2 false).subset hx)

theorem hasHtmlMatch_htmlStrip (l : List Char) : ∀ b, hasHtmlMatch (htmlStrip b l) = false := by
  induction l with
  | nil => intro b; cases b <;> rfl
  | cons c rest ih =>
    intro b
    cases b with
    | true =>
      simp only [htmlStrip]
      split
      · exact ih false
      · exact ih true
    | false =>
      simp only [htmlStrip]
      split
      · exact ih true
      · rename_i hcond
        rw [hasHtmlMatch, Bool.or_eq_false_iff]
        refine ⟨?_, ih false⟩
        by_cases hc : (c == '<') = true
        · have hopen : htmlOpen rest = false := by
            by_contra hh
            rw [Bool.not_eq_false] at hh
            exact hcond (by rw [hc, hh]; rfl)
          rw [htmlOpen_htmlStrip_false rest hopen]
          simp
        · rw [Bool.not_eq_true] at hc
          rw [hc]
          simp

theorem hasAssMatch_mono {l1 l2 : List Char} (h : Sub l1 l2)
    (hm : hasAssMatch l1 = true) : hasAssMatch l2 = true := by
  induction h with
  | slnil => exact hm
  | cons a h ih =>
    rw [hasAssMatch, Bool.or_eq_true]
    exact Or.inr (ih hm)
  | cons₂ a h ih =>
    rw [hasAssMatch, Bool.or_eq_true] at hm ⊢
    rcases hm with hm | hm
    · rw [Bool.and_eq_true] at hm
      obtain ⟨x, hx, hpx⟩ := List.any_eq_true.mp hm.2
      exact Or.inl (by
        rw [Bool.and_eq_true]
        exact ⟨hm.1, List.any_eq_true.mpr ⟨x, h.subset hx, hpx⟩⟩)
    · exact Or.inr (ih hm)

theorem htmlOpen_append (rest v : List Char) (h : htmlOpen rest = true) :
    htmlOpen (rest ++ v) = true := by
  cases rest with
  | nil => exact absurd h (by decide)
  | cons d rest2 =>
    rw [htmlOpen, Bool.and_eq_true] at h
    rw [List.cons_append, htmlOpen, Bool.and_eq_true]
    refine ⟨h.1, ?_⟩
    obtain ⟨x, hx, hpx⟩ := List.any_eq_true.mp h.2
    exact List.any_eq_true.mpr ⟨x, List.mem_append_left v hx, hpx⟩

theorem hasHtmlMatch_append_right (m v : List Char) (hm : hasHtmlMatch m = true) :
    hasHtmlMatch (m ++ v) = true := by
  induction m with
  | nil => exact absurd hm (by decide)
  | cons c rest ih =>
    rw [hasHtmlMatch, Bool.or_eq_true] at hm
    rw [List.cons_append, hasHtmlMatch, Bool.or_eq_true]
    rcases hm with hm | hm
    · rw [Bool.and_eq_true] at hm
      exact Or.inl (by
        rw [Bool.and_eq_true]
        exact ⟨hm.1, htmlOpen_append rest v hm.2⟩)
    · exact Or.inr (ih hm)

theorem hasHtmlMatch_append (u m v : List Char) (hm : hasHtmlMatch m = true) :
    hasHtmlMatch (u ++ (m ++ v)) = true := by
  induction u with
  | nil => simpa using hasHtmlMatch_append_right m v hm
  | cons a u ih =>
    rw [List.cons_append, hasHtmlMatch, Bool.or_eq_true]
    exact Or.inr ih

theorem dropWhile_decomp {α : Type} (p : α → Bool) (l : List α) :
    ∃ u, l = u ++ l.dropWhile p := by
  induction l with
  | nil => exact ⟨[], rfl⟩
  | cons c rest ih =>
    by_cases hp : p c = true
    · obtain ⟨u, hu⟩ := ih
      refine ⟨c :: u, ?_⟩
      rw [List.dropWhile_cons, if_pos hp, List.cons_append]
      exact congrArg (c :: ·) hu
    · refine ⟨[], ?_⟩
      rw [List.dropWhile_cons, if_neg hp, List.nil_append]

theorem trim_decomp (l : List Char) : ∃ u v, l = u ++ (trimChars l ++ v) := by
  obtain ⟨u, hu⟩ := dropWhile_decomp isRustWhitespace l
  obtain ⟨w, hw⟩ :=
    dropWhile_decomp isRustWhitespace (l.dropWhile isRustWhitespace).reverse
  refine ⟨u, w.reverse, ?_⟩
  have hA : l.dropWhile isRustWhitespace = trimChars l ++ w.reverse := by
    have := congrArg List.reverse hw
    rw [List.reverse_reverse, List.reverse_append] at this
    exact this
  rw [hA] at hu
  exact hu

theorem trim_sublist (l : List Char) : Sub (trimChars l) l := by
  obtain ⟨u, v, huv⟩ := trim_decomp l
  nth_rewrite 2 [huv]
  exact Sublist.trans (List.sublist_append_left (trimChars l) v)
    (List.sublist_append_right u (trimChars l ++ v))

theorem trim_eq_nil_of_ws (l : List Char) (h : ∀ c ∈ l, isRustWhitespace c = true) :
    trimChars l = [] := by
  rw [trimChars, List.dropWhile_eq_nil_iff.mpr h]
  rfl

theorem assStrip_append (p l : List Char) (hp : ∀ c ∈ p, c ≠ lbrace) :
    assStrip false (p ++ l) = p ++ assStrip false l := by
  induction p with
  | nil => rfl
  | cons c rest ih =>
    have hc : (c == lbrace) = false := by
      simpa using hp c (List.mem_cons_self c rest)
    have ih' := ih (fun x hx => hp x (List.mem_cons_of_mem c hx))
    simp [assStrip, hc, ih']

theorem assStrip_true_append (mid s : List Char) (hmid : ∀ c ∈ mid, c ≠ rbrace) :
    assStrip true (mid ++ rbrace :: s) = assStrip false s := by
  induction mid with
  | nil =>
    rw [List.nil_append]
    simp [assStrip]
  | cons c rest ih =>
    have hc : (c == rbrace) = false := by
      simpa using hmid c (List.mem_cons_self c rest)
    have ih' := ih (fun x hx => hmid x (List.mem_cons_of_mem c hx))
    simp [assStrip, hc, ih']

theorem record_eq (detect : List Char → Lang) (st : Counters) (t : List Char) :
    record detect st t =
      { chinese_count := st.chinese_count + cDelta detect t,
        japanese_count := st.japanese_count + jDelta detect t } := by
  rw [record, cDelta, jDelta]
  cases h : detect (clean_text t) <;> simp [h]

theorem processTexts_eq (detect : List Char → Lang) (ts : List (List Char)) :
    ∀ st : Counters, processTexts detect st ts =
      { chinese_count := st.chinese_count + (ts.map (cDelta detect)).sum,
        japanese_count := st.japanese_count + (ts.map (jDelta detect)).sum } := by
  induction ts with
  | nil => intro st; simp [processTexts]
  | cons t ts ih =>
    intro st
    rw [processTexts, List.foldl_cons]
    have := ih (record detect st t)
    rw [processTexts] at this
    rw [this, record_eq]
    simp [Nat.add_assoc]

theorem processTexts_perm (detect : List Char → Lang) (st : Counters)
    {ts1 ts2 : List (List Char)} (h : List.Perm ts1 ts2) :
    processTexts detect st ts1 = processTexts detect st ts2 := by
  rw [processTexts_eq, processTexts_eq]
  rw [(h.map (cDelta detect)).sum_eq, (h.map (jDelta detect)).sum_eq]

theorem ratioQ_lt_of_cmn (c j : Nat) (hj : 0 < j) :
    ratioQ ⟨c, j⟩ < ratioQ ⟨c + 1, j⟩ := by
  rw [ratioQ, ratioQ]
  simp only
  have hj' : (0 : ℚ) < (j : ℚ) := by exact_mod_cast hj
  have hc' : (0 : ℚ) ≤ (c : ℚ) := Nat.cast_nonneg c
  push_cast
  rw [div_lt_div_iff₀ (by linarith) (by linarith)]
  nlinarith

theorem ratioQ_lt_of_jpn (c j : Nat) (hc : 0 < c) :
    ratioQ ⟨c, j + 1⟩ < ratioQ ⟨c, j⟩ := by
  rw [ratioQ, ratioQ]
  simp only
  have hc' : (0 : ℚ) < (c : ℚ) := by exact_mod_cast hc
  have hj' : (0 : ℚ) ≤ (j : ℚ) := Nat.cast_nonneg j
  push_cast
  rw [div_lt_div_iff₀ (by linarith) (by linarith)]
  nlinarith

theorem ratioQ_cmn_sat (c : Nat) (hc : 0 < c) : ratioQ ⟨c, 0⟩ = 1 := by
  rw [ratioQ]
  simp only
  have hc' : (0 : ℚ) < (c : ℚ) := by exact_mod_cast hc
  push_cast
  rw [add_zero, div_self (by linarith)]

theorem ratioQ_jpn_sat (j : Nat) : ratioQ ⟨0, j⟩ = 0 := by
  rw [ratioQ]
  simp

theorem progressOutput_zero : progressOutput ⟨0, 0⟩ = ProgressValue.nan := rfl

theorem foldl_processEntry_filter (detect : List Char → Lang) (entries : List Entry) :
    ∀ st : Counters, entries.foldl (processEntry detect) st
      = (entries.filter isSubtitleEntry).foldl (processEntry detect) st := by
  induction entries with
  | nil => intro st; rfl
  | cons e es ih =>
    intro st
    rw [List.foldl_cons, List.filter_cons]
    cases e <;> simp [isSubtitleEntry, processEntry, ih]

/-- Claim C1: a complete run in which zero cues are classified as Chinese and
zero as Japanese produces the defined, deterministic NaN sentinel for the
progress ratio (IEEE f32 0.0/0.0), rather than crashing or propagating a
division fault. -/
theorem claim_C1 (detect : List Char → Lang) (texts : List (List Char))
    (h : ∀ t ∈ texts,
      detect (clean_text t) ≠ Lang.Cmn ∧ detect (clean_text t) ≠ Lang.Jpn) :
    progressOutput (processTexts detect ⟨0, 0⟩ texts) = ProgressValue.nan := by
  rw [processTexts_eq]
  have hc : (texts.map (cDelta detect)).sum = 0 := by
    apply List.sum_eq_zero
    intro x hx
    obtain ⟨t, ht, rfl⟩ := List.mem_map.mp hx
    rw [cDelta, if_neg (h t ht).1]
  have hj : (texts.map (jDelta detect)).sum = 0 := by
    apply List.sum_eq_zero
    intro x hx
    obtain ⟨t, ht, rfl⟩ := List.mem_map.mp hx
    rw [jDelta, if_neg (h t ht).2]
  rw [hc, hj]
  rfl

theorem claim_C1_witness :
    progressOutput (processTexts (fun _ => Lang.Eng) ⟨0, 0⟩ [['a']]) = ProgressValue.nan :=
  claim_C1 (fun _ => Lang.Eng) [['a']] (by decide)

/-- Claim C2: under the spec's contract for the external detector (the empty
string never classifies as Chinese or Japanese), a cue whose cleaned text is
empty — in particular any whitespace-only cue — increments neither counter;
the classification step is a total function, so it cannot abort the run. -/
theorem claim_C2 (detect : List Char → Lang) (st : Counters) (t : List Char)
    (hdet : SpecDetector detect)
    (h : clean_text t = [] ∨ ∀ c ∈ t, isRustWhitespace c = true) :
    record detect st t = st := by
  have hclean : clean_text t = [] := by
    rcases h with h | h
    · exact h
    · have hlb : ∀ c ∈ t, c ≠ lbrace := by
        intro c hc heq
        have hw := h c hc
        rw [heq] at hw
        exact absurd hw (by decide)
      have hlt : ∀ c ∈ t, c ≠ '<' := by
        intro c hc heq
        have hw := h c hc
        rw [heq] at hw
        exact absurd hw (by decide)
      rw [clean_text, stripAssTags, assStrip_id_of_no_lbrace t hlb,
        stripHtmlTags, htmlStrip_id_of_no_langle t hlt]
      exact trim_eq_nil_of_ws t h
  obtain ⟨h1, h2⟩ := hdet
  rw [record_eq, cDelta, jDelta, hclean, if_neg h1, if_neg h2]
  cases st
  simp

theorem claim_C2_witness :
    record (fun _ => Lang.Eng) ⟨3, 4⟩ [' '] = ⟨3, 4⟩ :=
  claim_C2 (fun _ => Lang.Eng) ⟨3, 4⟩ [' '] ⟨by decide, by decide⟩ (Or.inr (by decide))

/-- Claim C3 counterexample: when the root path does not exist, WalkDir yields
a single error entry; fn main skips it through the continue arm and still
reaches the final println, emitting the NaN progress record — it does not
terminate without emitting a result, contrary to the claim. -/
theorem claim_C3_counterexample :
    runMain (fun _ => Lang.Eng) [Entry.walkErr] = ProgressValue.nan := rfl

/-- Claim C3 (amended): no error arising anywhere in traversal or per-file
processing aborts the run — traversal-error entries (including the error
entry produced when the root path does not exist), non-files, unsupported
extensions and I/O failures contribute nothing, and the run always emits the
same result as a run over only the supported subtitle files. -/
theorem claim_C3 (detect : List Char → Lang) (entries : List Entry) :
    runMain detect entries = runMain detect (entries.filter isSubtitleEntry) := by
  rw [runMain, runMain, foldl_processEntry_filter]

/-- Claim C4: cleaning removes every occurrence of both markup patterns (the
cleaned text contains no brace-delimited substring and no nonempty-interior
angle-bracket-delimited substring, however many occurrences the cue had); a
cue of the form prefix-braceGroup-suffix cleans to prefix ++ suffix; and the
spec's two-tag example cleans exactly as specified. -/
theorem claim_C4 :
    (∀ t : List Char, hasAssMatch (clean_text t) = false
        ∧ hasHtmlMatch (clean_text t) = false)
    ∧ (∀ p mid s : List Char, (∀ c ∈ p, markupFree c = true) →
        (∀ c ∈ s, markupFree c = true) → (∀ c ∈ mid, c ≠ rbrace) →
        trimChars (p ++ s) = p ++ s →
        clean_text (p ++ lbrace :: (mid ++ rbrace :: s)) = p ++ s)
    ∧ clean_text ("<i>Hello</i> world".toList) = "Hello world".toList := by
  refine ⟨?_, ?_, by decide⟩
  · intro t
    constructor
    · have hA := hasAssMatch_assStrip t false
      have hB : hasAssMatch (stripHtmlTags (stripAssTags t)) = false := by
        by_contra hh
        rw [Bool.not_eq_false] at hh
        have := hasAssMatch_mono (htmlStrip_sublist (stripAssTags t) false) hh
        rw [stripAssTags] at this
        rw [this] at hA
        exact Bool.true_eq_false ▸ hA
      by_contra hh
      rw [Bool.not_eq_false] at hh
      have := hasAssMatch_mono (trim_sublist (stripHtmlTags (stripAssTags t))) hh
      rw [this] at hB
      exact absurd hB (by simp)
    · have hB := hasHtmlMatch_htmlStrip (stripAssTags t) false
      by_contra hh
      rw [Bool.not_eq_false] at hh
      obtain ⟨u, v, huv⟩ := trim_decomp (stripHtmlTags (stripAssTags t))
      have := hasHtmlMatch_append u _ v hh
      rw [clean_text] at this
      rw [← huv] at this
      rw [stripHtmlTags] at this
      rw [this] at hB
      exact absurd hB (by simp)
  · intro p mid s hp hs hmid htrim
    have hfree : ∀ c : Char, markupFree c = true →
        c ≠ lbrace ∧ c ≠ rbrace ∧ c ≠ '<' ∧ c ≠ '>' := by
      intro c hc
      rw [markupFree] at hc
      simp only [Bool.and_eq_true, bne_iff_ne] at hc
      exact ⟨hc.1.1.1, hc.1.1.2, hc.1.2, hc.2⟩
    have hplb : ∀ c ∈ p, c ≠ lbrace := fun c hc => (hfree c (hp c hc)).1
    have hslb : ∀ c ∈ s, c ≠ lbrace := fun c hc => (hfree c (hs c hc)).1
    have hlt : ∀ c ∈ p ++ s, c ≠ '<' := by
      intro c hc
      rcases List.mem_append.mp hc with hc | hc
      · exact (hfree c (hp c hc)).2.2.1
      · exact (hfree c (hs c hc)).2.2.1
    have hopen : assStrip false (lbrace :: (mid ++ rbrace :: s))
        = assStrip true (mid ++ rbrace :: s) := by
      rw [assStrip]
      rw [if_pos (by simp)]
    rw [clean_text, stripAssTags, assStrip_append p _ hplb, hopen,
      assStrip_true_append mid s hmid, assStrip_id_of_no_lbrace s hslb,
      stripHtmlTags, htmlStrip_id_of_no_langle (p ++ s) hlt, htrim]

theorem claim_C4_witness :
    clean_text (['a'] ++ lbrace :: (['x'] ++ rbrace :: ['b'])) = ['a'] ++ ['b'] :=
  claim_C4.2.1 ['a'] ['x'] ['b'] (by decide) (by decide) (by decide) (by decide)

/-- Claim C5: the LRC extractor maps each timed line to its text portion and
keeps exactly the lines whose trimmed text is nonempty; a lyric file with
three timed lines, one of them empty, yields exactly the two nonempty cues
for classification. -/
theorem claim_C5 :
    (∀ (lines : List (Nat × List Char)) (x : List Char),
        x ∈ parse_lrc_cues lines ↔ x ∈ lines.map Prod.snd ∧ trimChars x ≠ [])
    ∧ ∀ a b c : Nat × List Char, trimChars a.2 ≠ [] → trimChars b.2 = [] →
        trimChars c.2 ≠ [] →
        parse_lrc_cues [a, b, c] = [a.2, c.2]
        ∧ (parse_lrc_cues [a, b, c]).length = 2 := by
  constructor
  · intro lines x
    rw [parse_lrc_cues, List.mem_filter]
    simp [List.isEmpty_iff]
  · intro a b c ha hb hc
    have pa : (!(trimChars a.2).isEmpty) = true := by
      simpa [List.isEmpty_iff] using ha
    have pb : (!(trimChars b.2).isEmpty) = false := by
      simp [List.isEmpty_iff, hb]
    have pc : (!(trimChars c.2).isEmpty) = true := by
      simpa [List.isEmpty_iff] using hc
    constructor
    · rw [parse_lrc_cues]
      simp only [List.map_cons, List.map_nil, List.filter_cons, pa, pb, pc,
        if_pos, if_neg, List.filter_nil]
      simp
    · rw [parse_lrc_cues]
      simp only [List.map_cons, List.map_nil, List.filter_cons, pa, pb, pc,
        if_pos, if_neg, List.filter_nil]
      simp

theorem claim_C5_witness :
    parse_lrc_cues [(0, ['a']), (1, []), (2, ['b'])] = [['a'], ['b']]
    ∧ (parse_lrc_cues [(0, ['a']), (1, []), (2, ['b'])]).length = 2 :=
  claim_C5.2 (0, ['a']) (1, []) (2, ['b']) (by decide) (by decide) (by decide)

/-- Claim C6: a failed parse yields an empty cue sequence (the stderr report
with format name and path is I/O outside the value model), and a run over one
well-formed file plus one corrupt file of the same format — in either order —
produces exactly the output of the run over the well-formed file alone. -/
theorem claim_C6 :
    extractCues ParseResult.err = []
    ∧ ∀ (detect : List Char → Lang) (cues : List (List Char)),
        runMain detect
            [Entry.subtitleFile (ParseResult.ok cues), Entry.subtitleFile ParseResult.err]
          = runMain detect [Entry.subtitleFile (ParseResult.ok cues)]
        ∧ runMain detect
            [Entry.subtitleFile ParseResult.err, Entry.subtitleFile (ParseResult.ok cues)]
          = runMain detect [Entry.subtitleFile (ParseResult.ok cues)] :=
  ⟨rfl, fun _ _ => ⟨rfl, rfl⟩⟩

/-- Claim C7: the final counters — and hence the ratio — do not depend on the
order in which cues are processed: any permutation of the cue list folds to
the same counters. -/
theorem claim_C7 (detect : List Char → Lang) (st : Counters)
    (ts1 ts2 : List (List Char)) (h : List.Perm ts1 ts2) :
    processTexts detect st ts1 = processTexts detect st ts2 :=
  processTexts_perm detect st h

theorem claim_C7_witness :
    processTexts (fun _ => Lang.Cmn) ⟨0, 0⟩ [['a'], ['b']]
      = processTexts (fun _ => Lang.Cmn) ⟨0, 0⟩ [['b'], ['a']] :=
  claim_C7 (fun _ => Lang.Cmn) ⟨0, 0⟩ [['a'], ['b']] [['b'], ['a']]
    (List.Perm.swap ['b'] ['a'] [])

/-- Claim C8 counterexample: from the state with one Chinese and zero Japanese
cues (the ratio is defined: 1/1 = 1), recording one more Chinese-classified
cue leaves the ratio at 1 — it does not strictly increase as claimed. -/
theorem claim_C8_counterexample :
    (fun _ : List Char => Lang.Cmn) (clean_text []) = Lang.Cmn
    ∧ ratioQ (record (fun _ => Lang.Cmn) ⟨1, 0⟩ []) = ratioQ ⟨1, 0⟩
    ∧ ¬ ratioQ ⟨1, 0⟩ < ratioQ (record (fun _ => Lang.Cmn) ⟨1, 0⟩ []) := by
  have hrec : record (fun _ => Lang.Cmn) ⟨1, 0⟩ [] = ⟨2, 0⟩ := rfl
  rw [hrec]
  refine ⟨rfl, ?_, ?_⟩ <;>
    · rw [ratioQ, ratioQ]
      norm_num

/-- Claim C8 (amended): with the ratio defined, recording one more Chinese-
classified cue strictly increases the ratio provided japaneseCount is
positive, and leaves it unchanged (at 1) when japaneseCount is zero;
recording one more Japanese-classified cue strictly decreases it provided
chineseCount is positive, and leaves it unchanged (at 0) when chineseCount is
zero; recording an Other-classified cue leaves it unchanged. -/
theorem claim_C8 (detect : List Char → Lang) (st : Counters) (t : List Char)
    (hden : st.chinese_count + st.japanese_count ≠ 0) :
    (detect (clean_text t) = Lang.Cmn → 0 < st.japanese_count →
        ratioQ st < ratioQ (record detect st t))
    ∧ (detect (clean_text t) = Lang.Jpn → 0 < st.chinese_count →
        ratioQ (record detect st t) < ratioQ st)
    ∧ (detect (clean_text t) = Lang.Cmn → st.japanese_count = 0 →
        ratioQ (record detect st t) = ratioQ st)
    ∧ (detect (clean_text t) = Lang.Jpn → st.chinese_count = 0 →
        ratioQ (record detect st t) = ratioQ st)
    ∧ (detect (clean_text t) ≠ Lang.Cmn → detect (clean_text t) ≠ Lang.Jpn →
        ratioQ (record detect st t) = ratioQ st) := by
  obtain ⟨c, j⟩ := st
  simp only at hden ⊢
  refine ⟨?_, ?_, ?_, ?_, ?_⟩
  · intro hdet hj
    rw [record_eq]
    simp only [cDelta, jDelta, hdet, reduceIte, reduceCtorEq, Nat.add_zero]
    exact ratioQ_lt_of_cmn c j hj
  · intro hdet hc
    rw [record_eq]
    simp only [cDelta, jDelta, hdet, reduceIte, reduceCtorEq, Nat.add_zero]
    exact ratioQ_lt_of_jpn c j hc
  · intro hdet hj0
    subst hj0
    rw [record_eq]
    simp only [cDelta, jDelta, hdet, reduceIte, reduceCtorEq, Nat.add_zero]
    rw [ratioQ_cmn_sat (c + 1) (Nat.succ_pos c),
      ratioQ_cmn_sat c (Nat.pos_of_ne_zero (by simpa using hden))]
  · intro hdet hc0
    subst hc0
    rw [record_eq]
    simp only [cDelta, jDelta, hdet, reduceIte, reduceCtorEq, Nat.add_zero]
    rw [ratioQ_jpn_sat (j + 1), ratioQ_jpn_sat j]
  · intro h1 h2
    rw [record_eq]
    simp only [cDelta, jDelta, if_neg h1, if_neg h2, Nat.add_zero]

theorem claim_C8_witness :
    ratioQ ⟨1, 1⟩ < ratioQ (record (fun _ => Lang.Cmn) ⟨1, 1⟩ []) :=
  (claim_C8 (fun _ => Lang.Cmn) ⟨1, 1⟩ [] (by decide)).1 rfl (by decide)

/-- Claim C9: on a cue containing no match of either markup pattern, cleaning
is the identity up to trimming of leading and trailing whitespace. -/
theorem claim_C9 (t : List Char) (h1 : hasAssMatch t = false)
    (h2 : hasHtmlMatch t = false) : clean_text t = trimChars t := by
  rw [clean_text, stripAssTags, assStrip_id_of_no_match t h1,
    stripHtmlTags, htmlStrip_id_of_no_match t h2]

theorem claim_C9_witness :
    clean_text (" hi ".toList) = trimChars (" hi ".toList) :=
  claim_C9 (" hi ".toList) (by decide) (by decide)

/-- Claim C10: the two markup patterns are asymmetric at the empty-interior
edge: an empty brace pair is removed by cleaning (the brace pattern allows an
empty interior), while an empty angle-bracket pair is left unchanged (the
angle pattern demands a nonempty interior), so cleaned text can still contain
the two-character angle-bracket pair. -/
theorem claim_C10 :
    clean_text (lbrace :: rbrace :: []) = []
    ∧ clean_text ('a' :: lbrace :: rbrace :: 'b' :: []) = 'a' :: 'b' :: []
    ∧ stripHtmlTags ('<' :: '>' :: []) = '<' :: '>' :: []
    ∧ clean_text ('a' :: '<' :: '>' :: 'b' :: []) = 'a' :: '<' :: '>' :: 'b' :: [] := by
  refine ⟨?_, ?_, ?_, ?_⟩ <;> decide

end Trprvr
